import Mathlib

/-!
Verification of the column-routing feature-preprocessing pipeline described by
the repository's design spec.  The notebook (`XGBoost_on_GPU_Quickstart` /
sklearn quickstart cell 3) only configures the pipeline:

  numerical_cols = ['C1', 'C4', 'C5', 'C7', 'C8', 'C9']
  onehot_col = ['C3']
  numerical_transformer = Pipeline([SimpleImputer(strategy='mean'), StandardScaler()])
  onehot_transformer = Pipeline([OneHotEncoder(handle_unknown='ignore')])
  preprocessor = ColumnTransformer([('num', ..., numerical_cols), ('onehot', ..., onehot_col)])
  preprocessed_X = preprocessor.fit_transform(X)

The bodies of the transformers live in scikit-learn, outside this repository,
so the components (Column Router, Imputer, Scaler, OneHotEncoder, Combiner)
are modelled from the spec's component design (sections 3, 4 and 7) and the
theorems below settle the spec's testable properties (section 8) against that
model.  Tables hold exact rational values; the scaler's standardised output
lives in the real numbers so that the standard deviation (a square root) is
exact rather than floating point.
-/

deriving instance DecidableEq for Except

namespace CRPre

/-- Modelled from the spec: a table cell is a scalar value or missing/null
(section 3, Table).  The repository does not ship the table implementation
(it comes from pandas); values are modelled as exact rationals. -/
abbrev Cell := Option ℚ

/-- Modelled from the spec: a named column, a sequence of scalar-or-missing
values (section 3, Table).  The pandas column type is not in the repository. -/
structure Column where
  name : String
  data : List Cell
deriving DecidableEq, Repr

/-- Modelled from the spec: a table is an ordered sequence of named columns
(section 3, Table).  Equal column lengths are carried as hypotheses where a
claim needs them. -/
structure Table where
  cols : List Column
deriving DecidableEq, Repr

/-- Modelled from the spec: the error taxonomy of section 7
(`ColumnNotFoundError`, `EmptyColumnError`, `RowCountMismatchError`);
the notebook delegates error raising to scikit-learn. -/
inductive PError where
  | columnNotFound : String → PError
  | emptyColumn : PError
  | rowCountMismatch : PError
deriving DecidableEq, Repr

/-- The numerical column names designated in the notebook (part_000 line 95). -/
def numerical_cols : List String := ["C1", "C4", "C5", "C7", "C8", "C9"]

/-- The column designated for one-hot encoding in the notebook (part_000 line 97). -/
def onehot_col : List String := ["C3"]

/-- Look a column up by name (first match, as the routing layer does). -/
def Table.lookup (t : Table) (n : String) : Option Column :=
  t.cols.find? (fun c => c.name = n)

/-- Modelled from the spec: the Column Router (section 4.1).  `ColumnTransformer`'s
column selection is scikit-learn code absent from the repository.  Given the
requested names in order, returns the corresponding columns of the table, or
fails with `ColumnNotFoundError` on the first absent name. -/
def routeColumns (t : Table) : List String → Except PError (List Column)
  | [] => .ok []
  | n :: ns =>
    match t.lookup n with
    | some c =>
      match routeColumns t ns with
      | .ok cs => .ok (c :: cs)
      | .error e => .error e
    | none => .error (.columnNotFound n)

/-- The non-missing values of a column, in row order. -/
def observed (col : Column) : List ℚ :=
  col.data.filterMap id

/-- Mean of a list of rationals (`0` on the empty list, which never arises
after a successful fit). -/
def qmean (l : List ℚ) : ℚ := l.sum / l.length

/-- Population variance of a list of rationals. -/
def qvar (l : List ℚ) : ℚ :=
  (l.map (fun x => (x - qmean l) ^ 2)).sum / l.length

/-- Modelled from the spec: `SimpleImputer(strategy='mean')` fit (section 4.2);
the imputer itself is scikit-learn code absent from the repository.  The stored
replacement value is the mean of the non-missing values; a column with no
non-missing value fails with `EmptyColumnError`. -/
def imputerFitCol (col : Column) : Except PError ℚ :=
  match observed col with
  | [] => .error .emptyColumn
  | q :: qs => .ok (qmean (q :: qs))

/-- Modelled from the spec: per-cell imputation (section 4.2): a missing value
is replaced by the stored mean `m`, an observed value passes through. -/
def imputeCell (m : ℚ) : Cell → ℚ
  | none => m
  | some x => x

/-- Impute a whole column with the stored mean `m`. -/
def imputeCol (m : ℚ) (col : Column) : List ℚ :=
  col.data.map (imputeCell m)

/-- Modelled from the spec: the fitted parameters of the numerical pipeline for
one column (section 3, FittedImputer and FittedScaler): the imputer's stored
replacement value and the scaler's fit-time mean and population variance. -/
structure NumColParams where
  impMean : ℚ
  mu : ℚ
  v : ℚ
deriving DecidableEq, Repr

/-- Modelled from the spec: fitting the numerical pipeline on one column
(section 4.2): impute with the column mean, then record mean and variance of
the imputed data. -/
def numFitCol (col : Column) : Except PError NumColParams :=
  match imputerFitCol col with
  | .error e => .error e
  | .ok m => .ok ⟨m, qmean (imputeCol m col), qvar (imputeCol m col)⟩

/-- Modelled from the spec: fitting the numerical pipeline on the routed
numerical columns, column by column (section 4.2). -/
def numFit : List Column → Except PError (List NumColParams)
  | [] => .ok []
  | c :: cs =>
    match numFitCol c with
    | .error e => .error e
    | .ok p =>
      match numFit cs with
      | .error e => .error e
      | .ok ps => .ok (p :: ps)

/-- Distinct values of a list in first-appearance order. -/
def distinctFirst : List Cell → List Cell
  | [] => []
  | x :: xs => x :: distinctFirst (xs.filter (fun y => decide (y ≠ x)))
termination_by l => l.length
decreasing_by
  simp only [List.length_cons]
  exact Nat.lt_succ_of_le (List.length_filter_le _ _)

/-- Modelled from the spec: `OneHotEncoder` fit for one designated column
(section 4.3): record the distinct values observed, in a deterministic
(first-appearance) order. -/
def ohFitCol (col : Column) : List Cell :=
  distinctFirst col.data

/-- Modelled from the spec: `OneHotEncoder(handle_unknown='ignore')` transform
for one column (section 4.3): one binary indicator column per fit-time
category; a value unseen at fit time yields all-zero indicators and never an
error. -/
def ohTransformCol (cats : List Cell) (col : Column) : List (List ℚ) :=
  cats.map (fun cat => col.data.map (fun c => if c = cat then (1 : ℚ) else 0))

/-- Modelled from the spec: the one-hot block over the routed categorical
columns, output columns in (source-column, then category) order (section 3,
FeatureMatrix). -/
def ohTransform (cats : List (List Cell)) (cols : List Column) : List (List ℚ) :=
  (List.zipWith ohTransformCol cats cols).flatten

/-- Modelled from the spec: the scaler's divisor (section 4.2): the fit-time
standard deviation, with a standard deviation of exactly zero substituted
with 1 to avoid division by zero. -/
noncomputable def scale (v : ℚ) : ℝ :=
  if v = 0 then 1 else Real.sqrt (v : ℝ)

/-- Modelled from the spec: the numerical pipeline's per-cell transform
(section 4.2): replace a missing value with the stored fit-time mean, then
apply `(x - mean) / stddev` with the stored fit-time statistics. -/
noncomputable def scaleCell (p : NumColParams) (c : Cell) : ℝ :=
  ((imputeCell p.impMean c : ℚ) - (p.mu : ℚ) : ℚ) / scale p.v

/-- Modelled from the spec: `transform` of the numerical pipeline on one
column (section 4.2): purely per-cell, never refits. -/
noncomputable def numTransformCol (p : NumColParams) (col : Column) : List ℝ :=
  col.data.map (scaleCell p)

/-- Modelled from the spec: the numerical block over the routed numerical
columns, in original column order. -/
noncomputable def numTransform (ps : List NumColParams) (cols : List Column) : List (List ℝ) :=
  List.zipWith numTransformCol ps cols

/-- Cast a rational-valued block (the one-hot indicators) into the
real-valued feature matrix. -/
noncomputable def castBlock (b : List (List ℚ)) : List (List ℝ) :=
  b.map (fun c => c.map Rat.cast)

/-- Modelled from the spec: the Combiner (section 4.4): concatenates the
numerical block and the one-hot block column-wise, failing with
`RowCountMismatchError` if the two blocks disagree on row count. -/
def combine (b1 b2 : List (List ℝ)) : Except PError (List (List ℝ)) :=
  match b1.head?, b2.head? with
  | some c1, some c2 =>
    if c1.length = c2.length then .ok (b1 ++ b2) else .error .rowCountMismatch
  | _, _ => .ok (b1 ++ b2)

/-- Modelled from the spec: the fitted-parameter bundle (section 6): the
designated column names, the numerical pipeline's per-column parameters, and
the one-hot category list per categorical column, persisted unmodified for
reuse at transform time. -/
structure FittedPreprocessor where
  numNames : List String
  catNames : List String
  numParams : List NumColParams
  catCats : List (List Cell)
deriving DecidableEq, Repr

/-- Modelled from the spec: `preprocessor.fit` (sections 4.1–4.3): route the
designated columns, fit the numerical pipeline and record the one-hot
categories. -/
def preFit (numNames catNames : List String) (t : Table) :
    Except PError FittedPreprocessor :=
  match routeColumns t numNames with
  | .error e => .error e
  | .ok numCols =>
    match routeColumns t catNames with
    | .error e => .error e
    | .ok catCols =>
      match numFit numCols with
      | .error e => .error e
      | .ok ps => .ok ⟨numNames, catNames, ps, catCols.map ohFitCol⟩

/-- Modelled from the spec: `preprocessor.transform` (sections 4.1–4.4):
route the designated columns, apply both fitted pipelines, and combine the
two blocks, scaled numerical columns first, then one-hot columns. -/
noncomputable def preTransform (f : FittedPreprocessor) (t : Table) :
    Except PError (List (List ℝ)) :=
  match routeColumns t f.numNames with
  | .error e => .error e
  | .ok numCols =>
    match routeColumns t f.catNames with
    | .error e => .error e
    | .ok catCols =>
      combine (numTransform f.numParams numCols)
        (castBlock (ohTransform f.catCats catCols))

/-- Modelled from the spec: `preprocessor.fit_transform` (section 4.2):
`fit` then `transform` on the same table, as in the notebook's single
training pass (part_000 line 117). -/
noncomputable def preFitTransform (numNames catNames : List String) (t : Table) :
    Except PError (List (List ℝ)) :=
  match preFit numNames catNames t with
  | .error e => .error e
  | .ok f => preTransform f t

/-- Mean of a list of reals, used to state the scaler's output property. -/
noncomputable def rmean (l : List ℝ) : ℝ := l.sum / l.length

/-- Population variance of a list of reals, used to state the scaler's
output property (its square root is the standard deviation). -/
noncomputable def rvar (l : List ℝ) : ℝ :=
  (l.map (fun x => (x - rmean l) ^ 2)).sum / l.length

/-- A column is constant when all its non-missing values agree; this is the
sense in which the spec's scaler exception ("the original column was
constant") applies to a column with missing cells. -/
def constantObserved (col : Column) : Prop :=
  ∀ a ∈ observed col, ∀ b ∈ observed col, a = b

instance (col : Column) : Decidable (constantObserved col) := by
  unfold constantObserved
  infer_instance

theorem sum_map_sub_div (l : List ℝ) (c s : ℝ) :
    (l.map (fun x => (x - c) / s)).sum = (l.sum - l.length * c) / s := by
  induction l with
  | nil => simp
  | cons a t ih =>
    simp only [List.map_cons, List.sum_cons, ih, List.length_cons]
    rw [div_add_div_same]
    push_cast
    ring_nf

theorem sum_map_div (l : List ℝ) (f : ℝ → ℝ) (s : ℝ) :
    (l.map (fun x => f x / s)).sum = (l.map f).sum / s := by
  induction l with
  | nil => simp
  | cons a t ih => simp [ih, add_div]

theorem castList_sum (l : List ℚ) :
    ((l.sum : ℚ) : ℝ) = (l.map Rat.cast).sum := by
  induction l with
  | nil => simp
  | cons a t ih => push_cast [ih]; simp

theorem qmean_cast (l : List ℚ) :
    ((qmean l : ℚ) : ℝ) = rmean (l.map Rat.cast) := by
  unfold qmean rmean
  push_cast [castList_sum]
  simp

theorem qvar_cast (l : List ℚ) :
    ((qvar l : ℚ) : ℝ) = rvar (l.map Rat.cast) := by
  unfold qvar rvar
  push_cast [castList_sum]
  rw [List.map_map, List.map_map]
  congr 2
  · refine List.map_congr_left (fun x _ => ?_)
    simp only [Function.comp_apply]
    rw [← qmean_cast]
    push_cast
    ring
  · simp

theorem qvar_nonneg (l : List ℚ) : 0 ≤ qvar l := by
  unfold qvar
  refine div_nonneg (List.sum_nonneg fun x hx => ?_) (Nat.cast_nonneg _)
  obtain ⟨a, _, rfl⟩ := List.mem_map.mp hx
  exact sq_nonneg _

theorem sum_sq_eq_zero {l : List ℚ} {c : ℚ}
    (h : (l.map (fun x => (x - c) ^ 2)).sum = 0) : ∀ x ∈ l, x = c := by
  induction l with
  | nil => simp
  | cons a t ih =>
    simp only [List.map_cons, List.sum_cons] at h
    have ha : (0 : ℚ) ≤ (a - c) ^ 2 := sq_nonneg _
    have ht : (0 : ℚ) ≤ (t.map (fun x => (x - c) ^ 2)).sum :=
      List.sum_nonneg fun x hx => by
        obtain ⟨b, _, rfl⟩ := List.mem_map.mp hx
        exact sq_nonneg _
    obtain ⟨h1, h2⟩ := (add_eq_zero_iff_of_nonneg ha ht).mp h
    intro x hx
    rcases List.mem_cons.mp hx with rfl | hx
    · have := pow_eq_zero_iff (n := 2) (by norm_num) |>.mp h1
      linarith [sub_eq_zero.mp this]
    · exact ih h2 x hx

theorem qvar_eq_zero_iff {l : List ℚ} (hn : l ≠ []) :
    qvar l = 0 ↔ ∀ x ∈ l, x = qmean l := by
  have hlen : (l.length : ℚ) ≠ 0 := by
    exact_mod_cast Nat.cast_ne_zero.mpr (List.length_pos.mpr hn).ne'
  constructor
  · intro h
    unfold qvar at h
    rcases div_eq_zero_iff.mp h with hs | hl
    · exact sum_sq_eq_zero hs
    · exact absurd hl hlen
  · intro h
    unfold qvar
    have : (l.map (fun x => (x - qmean l) ^ 2)).sum = 0 := by
      refine List.sum_eq_zero fun x hx => ?_
      obtain ⟨b, hb, rfl⟩ := List.mem_map.mp hx
      rw [h b hb]
      ring
    rw [this, zero_div]

theorem rmean_centered (l : List ℝ) (s : ℝ) :
    rmean (l.map (fun x => (x - rmean l) / s)) = 0 := by
  rcases eq_or_ne l [] with rfl | hn
  · simp [rmean]
  · have hlen : (l.length : ℝ) ≠ 0 :=
      Nat.cast_ne_zero.mpr (List.length_pos.mpr hn).ne'
    unfold rmean
    rw [sum_map_sub_div, List.length_map]
    rw [mul_div_cancel₀ _ hlen]
    simp

theorem rvar_scaled (l : List ℝ) (s : ℝ) :
    rvar (l.map (fun x => (x - rmean l) / s)) = rvar l / s ^ 2 := by
  unfold rvar
  rw [rmean_centered, List.map_map, List.length_map]
  have : ((fun x => (x - 0) ^ 2) ∘ fun x => (x - rmean l) / s) =
      fun x => ((x - rmean l) ^ 2) / s ^ 2 := by
    funext x
    simp [div_pow]
  rw [this, sum_map_div l (fun x => (x - rmean l) ^ 2) (s ^ 2)]
  rw [div_div, div_div, mul_comm]

theorem numTransformCol_eq (p : NumColParams) (col : Column) :
    numTransformCol p col =
      (imputeCol p.impMean col).map
        (fun q => (((q : ℚ) : ℝ) - ((p.mu : ℚ) : ℝ)) / scale p.v) := by
  unfold numTransformCol imputeCol scaleCell
  rw [List.map_map]
  refine (List.map_congr_left fun c _ => ?_).symm
  simp only [Function.comp_apply]
  push_cast
  ring_nf

theorem map_center_cast (xs : List ℚ) (s : ℝ) :
    xs.map (fun q => (((q : ℚ) : ℝ) - ((qmean xs : ℚ) : ℝ)) / s) =
      (xs.map Rat.cast).map (fun x => (x - rmean (xs.map Rat.cast)) / s) := by
  rw [List.map_map]
  refine List.map_congr_left fun q _ => ?_
  simp only [Function.comp_apply]
  rw [qmean_cast]

theorem qmean_const {l : List ℚ} {a : ℚ} (hl : l ≠ []) (h : ∀ x ∈ l, x = a) :
    qmean l = a := by
  have hlen : (l.length : ℚ) ≠ 0 :=
    Nat.cast_ne_zero.mpr (List.length_pos.mpr hl).ne'
  unfold qmean
  rw [List.sum_eq_card_nsmul l a h, nsmul_eq_mul]
  field_simp

theorem observed_mem_imputeCol {col : Column} {m a : ℚ}
    (ha : a ∈ observed col) : a ∈ imputeCol m col := by
  obtain ⟨c, hc, hca⟩ := List.mem_filterMap.mp ha
  cases c with
  | none => simp at hca
  | some b =>
    simp only [id] at hca
    obtain rfl := Option.some_inj.mp hca
    exact List.mem_map.mpr ⟨some b, hc, rfl⟩

theorem imputeCol_ne_nil {col : Column} {m : ℚ}
    (h : observed col ≠ []) : imputeCol m col ≠ [] := by
  intro hnil
  apply h
  have : col.data = [] := by
    unfold imputeCol at hnil
    exact List.map_eq_nil_iff.mp hnil
  unfold observed
  rw [this]
  rfl

theorem constant_iff_qvar_zero {col : Column} {m : ℚ}
    (h : imputerFitCol col = .ok m) :
    constantObserved col ↔ qvar (imputeCol m col) = 0 := by
  have hobs : observed col ≠ [] ∧ m = qmean (observed col) := by
    unfold imputerFitCol at h
    cases hcase : observed col with
    | nil => rw [hcase] at h; exact absurd h (by simp)
    | cons q qs =>
      rw [hcase] at h
      simp only [Except.ok.injEq] at h
      exact ⟨by simp, h.symm⟩
  obtain ⟨hne, hm⟩ := hobs
  have hxne : imputeCol m col ≠ [] := imputeCol_ne_nil hne
  constructor
  · intro hconst
    obtain ⟨q, hq⟩ := List.exists_mem_of_ne_nil _ hne
    have hallq : ∀ x ∈ observed col, x = q := fun x hx => hconst x hx q hq
    have hmq : m = q := by rw [hm]; exact qmean_const hne hallq
    have hxall : ∀ x ∈ imputeCol m col, x = q := by
      intro x hx
      obtain ⟨c, hc, hcx⟩ := List.mem_map.mp hx
      cases c with
      | none => rw [← hcx]; exact hmq
      | some b =>
        have hb : b ∈ observed col := List.mem_filterMap.mpr ⟨some b, hc, rfl⟩
        rw [← hcx]
        exact hallq b hb
    refine (qvar_eq_zero_iff hxne).mpr fun x hx => ?_
    rw [hxall x hx, qmean_const hxne hxall]
  · intro hv
    have hall := (qvar_eq_zero_iff hxne).mp hv
    intro a ha b hb
    rw [hall a (observed_mem_imputeCol ha), hall b (observed_mem_imputeCol hb)]

theorem imputerFitCol_ok {col : Column} {m : ℚ}
    (h : imputerFitCol col = .ok m) :
    observed col ≠ [] ∧ m = qmean (observed col) := by
  unfold imputerFitCol at h
  cases hcase : observed col with
  | nil => rw [hcase] at h; exact absurd h (by simp)
  | cons q qs =>
    rw [hcase] at h
    simp only [Except.ok.injEq] at h
    exact ⟨by simp, h.symm⟩

theorem numFitCol_ok {col : Column} {p : NumColParams}
    (h : numFitCol col = .ok p) :
    imputerFitCol col = .ok p.impMean ∧
      p.mu = qmean (imputeCol p.impMean col) ∧
      p.v = qvar (imputeCol p.impMean col) := by
  unfold numFitCol at h
  cases him : imputerFitCol col with
  | error e => rw [him] at h; exact absurd h (by simp)
  | ok m =>
    rw [him] at h
    simp only [Except.ok.injEq] at h
    subst h
    exact ⟨rfl, rfl, rfl⟩

theorem scale_sq {v : ℚ} (hv : 0 ≤ v) : scale v ^ 2 = if v = 0 then 1 else (v : ℝ) := by
  unfold scale
  split
  · norm_num
  · exact Real.sq_sqrt (by exact_mod_cast hv)

theorem numTransformCol_centered (col : Column) (p : NumColParams)
    (hmu : p.mu = qmean (imputeCol p.impMean col)) :
    numTransformCol p col =
      ((imputeCol p.impMean col).map Rat.cast).map
        (fun x => (x - rmean ((imputeCol p.impMean col).map Rat.cast)) / scale p.v) := by
  rw [numTransformCol_eq, hmu]
  exact map_center_cast _ _

/-- C2: for every column used both to fit and to transform the numerical
pipeline, the transformed column has mean 0; if the column was constant (all
its non-missing values agree), every output value is 0 (the fit-time standard
deviation of zero is substituted with 1, so no division by zero occurs);
otherwise the output's population variance is 1 and hence its standard
deviation is 1. -/
theorem scaler_standardizes (col : Column) (p : NumColParams)
    (h : numFitCol col = .ok p) :
    rmean (numTransformCol p col) = 0 ∧
    (constantObserved col → ∀ y ∈ numTransformCol p col, y = 0) ∧
    (¬ constantObserved col →
      rvar (numTransformCol p col) = 1 ∧
      Real.sqrt (rvar (numTransformCol p col)) = 1) := by
  obtain ⟨him, hmu, hv⟩ := numFitCol_ok h
  obtain ⟨hne, hmdef⟩ := imputerFitCol_ok him
  have hxne : imputeCol p.impMean col ≠ [] := imputeCol_ne_nil hne
  have hy := numTransformCol_centered col p hmu
  refine ⟨?_, ?_, ?_⟩
  · rw [hy]
    exact rmean_centered _ _
  · intro hconst
    have hv0 : qvar (imputeCol p.impMean col) = 0 :=
      (constant_iff_qvar_zero him).mp hconst
    have hall := (qvar_eq_zero_iff hxne).mp hv0
    intro y hy'
    rw [hy] at hy'
    obtain ⟨x, hx, rfl⟩ := List.mem_map.mp hy'
    obtain ⟨q, hq, rfl⟩ := List.mem_map.mp hx
    rw [← qmean_cast, hall q hq]
    simp
  · intro hconst
    have hv0 : qvar (imputeCol p.impMean col) ≠ 0 := fun h0 =>
      hconst ((constant_iff_qvar_zero him).mpr h0)
    have hvne : p.v ≠ 0 := by rw [hv]; exact hv0
    have hvnn : (0 : ℚ) ≤ p.v := hv ▸ qvar_nonneg _
    have hL : rvar ((imputeCol p.impMean col).map Rat.cast) = ((p.v : ℚ) : ℝ) := by
      rw [← qvar_cast, hv]
    have hone : rvar (numTransformCol p col) = 1 := by
      rw [hy, rvar_scaled, hL, scale_sq hvnn, if_neg hvne]
      exact div_self (by exact_mod_cast hvne)
    exact ⟨hone, by rw [hone]; exact Real.sqrt_one⟩

theorem distinctFirst_mem (l : List Cell) (a : Cell) :
    a ∈ distinctFirst l ↔ a ∈ l := by
  induction l using distinctFirst.induct with
  | case1 => simp [distinctFirst]
  | case2 x xs ih =>
    rw [distinctFirst]
    simp only [List.mem_cons, ih, List.mem_filter, decide_eq_true_eq]
    constructor
    · rintro (rfl | ⟨hmem, _⟩)
      · exact Or.inl rfl
      · exact Or.inr hmem
    · rintro (rfl | hmem)
      · exact Or.inl rfl
      · rcases eq_or_ne a x with rfl | hne
        · exact Or.inl rfl
        · exact Or.inr ⟨hmem, hne⟩

theorem distinctFirst_nodup (l : List Cell) : (distinctFirst l).Nodup := by
  induction l using distinctFirst.induct with
  | case1 => simp [distinctFirst]
  | case2 x xs ih =>
    rw [distinctFirst]
    refine List.nodup_cons.mpr ⟨fun hx => ?_, ih⟩
    have := (distinctFirst_mem _ _).mp hx
    simp at this

theorem indicator_sum {cats : List Cell} (hnd : cats.Nodup) (v : Cell) :
    (cats.map (fun cat => if v = cat then (1 : ℚ) else 0)).sum =
      if v ∈ cats then 1 else 0 := by
  induction cats with
  | nil => simp
  | cons c cs ih =>
    obtain ⟨hc, hcs⟩ := List.nodup_cons.mp hnd
    simp only [List.map_cons, List.sum_cons, ih hcs, List.mem_cons]
    rcases eq_or_ne v c with rfl | hne
    · rw [if_pos rfl, if_pos (Or.inl rfl), if_neg hc]
      norm_num
    · rw [if_neg hne]
      by_cases hm : v ∈ cs
      · rw [if_pos hm, if_pos (Or.inr hm)]
        norm_num
      · rw [if_neg hm, if_neg (by tauto)]
        norm_num

theorem getD_map (l : List Cell) (f : Cell → ℚ) (i : ℕ) (hi : i < l.length) :
    (l.map f).getD i 0 = f (l.getD i none) := by
  have hi' : i < (l.map f).length := by simpa using hi
  rw [List.getD_eq_getElem _ _ hi', List.getD_eq_getElem _ _ hi, List.getElem_map]

/-- C1: for a one-hot pipeline fitted on `fitCol`, transform of any column
emits one indicator column per fit-time category, and for each row the
indicators sum to exactly 1 when the row's value was among the fit-time
values and to exactly 0 when it was not.  Unseen values never raise an
error (the transform is a total function) and never set two indicators. -/
theorem onehot_row_sums (fitCol col : Column) (i : ℕ) (hi : i < col.data.length) :
    (ohTransformCol (ohFitCol fitCol) col).length = (ohFitCol fitCol).length ∧
    ((ohTransformCol (ohFitCol fitCol) col).map (fun oc => oc.getD i 0)).sum =
      if col.data.getD i none ∈ fitCol.data then (1 : ℚ) else 0 := by
  constructor
  · unfold ohTransformCol
    exact List.length_map _ _
  · unfold ohTransformCol
    rw [List.map_map]
    have hpt : ∀ cat ∈ ohFitCol fitCol,
        ((fun oc => oc.getD i 0) ∘ fun cat => col.data.map
          (fun c => if c = cat then (1 : ℚ) else 0)) cat =
        (fun cat => if col.data.getD i none = cat then (1 : ℚ) else 0) cat := by
      intro cat _
      simp only [Function.comp_apply]
      exact getD_map _ _ _ hi
    rw [List.map_congr_left hpt]
    unfold ohFitCol
    rw [indicator_sum (distinctFirst_nodup fitCol.data) (col.data.getD i none)]
    rw [if_congr (distinctFirst_mem _ _) rfl rfl]

theorem lookup_mem {t : Table} {n : String} {c : Column}
    (h : t.lookup n = some c) : c ∈ t.cols :=
  List.mem_of_find?_eq_some h

theorem lookup_name {t : Table} {n : String} {c : Column}
    (h : t.lookup n = some c) : c.name = n := by
  have := List.find?_some h
  simpa using this

theorem routeColumns_ok_spec {t : Table} {ns : List String} {cs : List Column}
    (h : routeColumns t ns = .ok cs) :
    cs.length = ns.length ∧ cs.map Column.name = ns ∧
      (∀ c ∈ cs, c ∈ t.cols) ∧
      ∀ i (hi : i < ns.length) (hi' : i < cs.length),
        t.lookup (ns.get ⟨i, hi⟩) = some (cs.get ⟨i, hi'⟩) := by
  induction ns generalizing cs with
  | nil =>
    simp only [routeColumns, Except.ok.injEq] at h
    subst h
    exact ⟨rfl, rfl, by simp, by simp⟩
  | cons n ns ih =>
    rw [routeColumns] at h
    cases hn : t.lookup n with
    | none => rw [hn] at h; exact absurd h (by simp)
    | some c =>
      rw [hn] at h
      cases hrec : routeColumns t ns with
      | error e => rw [hrec] at h; exact absurd h (by simp)
      | ok cs' =>
        rw [hrec] at h
        simp only [Except.ok.injEq] at h
        subst h
        obtain ⟨hlen, hnames, hmem, hidx⟩ := ih hrec
        refine ⟨by simp [hlen], by simp [hnames, lookup_name hn], ?_, ?_⟩
        · intro c' hc'
          rcases List.mem_cons.mp hc' with rfl | hc'
          · exact lookup_mem hn
          · exact hmem c' hc'
        · intro i hi hi'
          cases i with
          | zero => simpa using hn
          | succ j =>
            simp only [List.get_cons_succ]
            exact hidx j (Nat.lt_of_succ_lt_succ hi) (Nat.lt_of_succ_lt_succ hi')

theorem routeColumns_total {t : Table} {ns : List String}
    (h : ∀ n ∈ ns, (t.lookup n).isSome) :
    ∃ cs, routeColumns t ns = .ok cs := by
  induction ns with
  | nil => exact ⟨[], rfl⟩
  | cons n ns ih =>
    obtain ⟨c, hc⟩ := Option.isSome_iff_exists.mp (h n (List.mem_cons_self n ns))
    obtain ⟨cs, hcs⟩ := ih fun m hm => h m (List.mem_cons_of_mem n hm)
    exact ⟨c :: cs, by rw [routeColumns, hc, hcs]⟩

theorem routeColumns_absent {t : Table} {ns : List String}
    (h : ∃ n ∈ ns, t.lookup n = none) :
    ∃ m ∈ ns, t.lookup m = none ∧
      routeColumns t ns = .error (.columnNotFound m) := by
  induction ns with
  | nil => simp at h
  | cons n ns ih =>
    cases hn : t.lookup n with
    | none => exact ⟨n, List.mem_cons_self n ns, hn, by rw [routeColumns, hn]⟩
    | some c =>
      have hns : ∃ m ∈ ns, t.lookup m = none := by
        obtain ⟨m, hm, hml⟩ := h
        rcases List.mem_cons.mp hm with rfl | hm'
        · exact absurd hml (by rw [hn]; simp)
        · exact ⟨m, hm', hml⟩
      obtain ⟨m, hm, hml, hroute⟩ := ih hns
      exact ⟨m, List.mem_cons_of_mem n hm, hml, by rw [routeColumns, hn, hroute]⟩

/-- C7: the Column Router returns, for any requested name list (hence for
each of the two disjoint designated groups), the sub-table of the named
columns with the requested within-group order and each returned column a
column of the input table with its data (row order) intact; it fails with
`ColumnNotFoundError` exactly when a requested name is absent.  The router
is a pure function of the table, so the input table is not modified. -/
theorem router_contract (t : Table) (ns : List String) :
    ((∀ n ∈ ns, (t.lookup n).isSome) →
      ∃ cs, routeColumns t ns = .ok cs ∧ cs.map Column.name = ns ∧
        ∀ c ∈ cs, c ∈ t.cols) ∧
    ((∃ n ∈ ns, t.lookup n = none) →
      ∃ m ∈ ns, t.lookup m = none ∧
        routeColumns t ns = .error (.columnNotFound m)) := by
  constructor
  · intro h
    obtain ⟨cs, hcs⟩ := routeColumns_total h
    obtain ⟨_, hnames, hmem, _⟩ := routeColumns_ok_spec hcs
    exact ⟨cs, hcs, hnames, hmem⟩
  · exact routeColumns_absent

theorem numFit_length {cols : List Column} {ps : List NumColParams}
    (h : numFit cols = .ok ps) : ps.length = cols.length := by
  induction cols generalizing ps with
  | nil =>
    simp only [numFit, Except.ok.injEq] at h
    subst h
    rfl
  | cons c cs ih =>
    rw [numFit] at h
    cases hc : numFitCol c with
    | error e => rw [hc] at h; exact absurd h (by simp)
    | ok p =>
      rw [hc] at h
      cases hcs : numFit cs with
      | error e => rw [hcs] at h; exact absurd h (by simp)
      | ok ps' =>
        rw [hcs] at h
        simp only [Except.ok.injEq] at h
        subst h
        simp [ih hcs]

theorem numFit_error_of_empty {cols : List Column}
    (h : ∃ col ∈ cols, observed col = []) :
    numFit cols = .error .emptyColumn := by
  induction cols with
  | nil => simp at h
  | cons c cs ih =>
    rw [numFit]
    cases hc : numFitCol c with
    | error e =>
      have : e = .emptyColumn := by
        unfold numFitCol at hc
        cases him : imputerFitCol c with
        | error e' =>
          rw [him] at hc
          simp only [Except.error.injEq] at hc
          subst hc
          unfold imputerFitCol at him
          cases hobs : observed c with
          | nil => rw [hobs] at him; simpa using him.symm
          | cons q qs => rw [hobs] at him; exact absurd him (by simp)
        | ok m => rw [him] at hc; exact absurd hc (by simp)
      rw [this]
    | ok p =>
      have hcne : observed c ≠ [] := by
        intro hobs
        unfold numFitCol imputerFitCol at hc
        rw [hobs] at hc
        exact absurd hc (by simp)
      have hcs : ∃ col ∈ cs, observed col = [] := by
        obtain ⟨col, hcol, hobs⟩ := h
        rcases List.mem_cons.mp hcol with rfl | hcol'
        · exact absurd hobs hcne
        · exact ⟨col, hcol', hobs⟩
      rw [ih hcs]

/-- C6: fitting the numerical pipeline on columns among which one is
entirely missing fails with `EmptyColumnError`; for any column with at
least one non-missing value the per-column fit succeeds and the stored
replacement value is the mean of the column's non-missing values. -/
theorem numerical_fit_contract (cols : List Column) :
    ((∃ col ∈ cols, observed col = []) → numFit cols = .error .emptyColumn) ∧
    (∀ col : Column, observed col ≠ [] →
      ∃ p, numFitCol col = .ok p ∧ p.impMean = qmean (observed col)) := by
  refine ⟨numFit_error_of_empty, fun col hne => ?_⟩
  cases hobs : observed col with
  | nil => exact absurd hobs hne
  | cons q qs =>
    refine ⟨⟨qmean (q :: qs), qmean (imputeCol (qmean (q :: qs)) col),
      qvar (imputeCol (qmean (q :: qs)) col)⟩, ?_, by simp [hobs]⟩
    unfold numFitCol imputerFitCol
    rw [hobs]

/-- C8: in this model the fitted parameters are an immutable value threaded
into `transform`, so they are unchanged by construction; the formal content
is locality: row `i` of a transformed column depends only on the fitted
parameters and cell `i` of the input (no statistic is recomputed from the
transform-time data), a missing cell is replaced by the fit-time imputer
mean and then standardised with the fit-time mean and standard deviation,
and the one-hot output at row `i` likewise depends only on the fit-time
category list and cell `i`. -/
theorem transform_uses_fit_params (p : NumColParams) (cats : List Cell)
    (col col' : Column) (i : ℕ) (h : col.data[i]? = col'.data[i]?) :
    (numTransformCol p col)[i]? = (numTransformCol p col')[i]? ∧
    (col.data[i]? = some none →
      (numTransformCol p col)[i]? =
        some ((((p.impMean : ℚ) : ℝ) - ((p.mu : ℚ) : ℝ)) / scale p.v)) ∧
    (ohTransformCol cats col).map (fun oc => oc[i]?) =
      (ohTransformCol cats col').map (fun oc => oc[i]?) := by
  refine ⟨?_, ?_, ?_⟩
  · unfold numTransformCol
    rw [List.getElem?_map, List.getElem?_map, h]
  · intro hmiss
    unfold numTransformCol
    rw [List.getElem?_map, hmiss]
    simp only [Option.map_some']
    congr 1
    unfold scaleCell imputeCell
    push_cast
    ring
  · unfold ohTransformCol
    rw [List.map_map, List.map_map]
    refine List.map_congr_left fun cat _ => ?_
    simp only [Function.comp_apply]
    rw [List.getElem?_map, List.getElem?_map, h]

theorem combine_ok_eq {b1 b2 m : List (List ℝ)} (h : combine b1 b2 = .ok m) :
    m = b1 ++ b2 := by
  unfold combine at h
  cases h1 : b1.head? with
  | none => rw [h1] at h; cases h2 : b2.head? <;> rw [h2] at h <;> simpa using h.symm
  | some c1 =>
    rw [h1] at h
    cases h2 : b2.head? with
    | none => rw [h2] at h; simpa using h.symm
    | some c2 =>
      rw [h2] at h
      dsimp only at h
      by_cases hlen : c1.length = c2.length
      · rw [if_pos hlen] at h; simpa using h.symm
      · rw [if_neg hlen] at h; exact absurd h (by simp)

theorem preFit_ok {nn cn : List String} {t : Table} {f : FittedPreprocessor}
    (h : preFit nn cn t = .ok f) :
    ∃ ncols ccols ps, routeColumns t nn = .ok ncols ∧
      routeColumns t cn = .ok ccols ∧ numFit ncols = .ok ps ∧
      f = ⟨nn, cn, ps, ccols.map ohFitCol⟩ := by
  unfold preFit at h
  cases hn : routeColumns t nn with
  | error e => rw [hn] at h; exact absurd h (by simp)
  | ok ncols =>
    rw [hn] at h
    dsimp only at h
    cases hc : routeColumns t cn with
    | error e => rw [hc] at h; exact absurd h (by simp)
    | ok ccols =>
      rw [hc] at h
      dsimp only at h
      cases hps : numFit ncols with
      | error e => rw [hps] at h; exact absurd h (by simp)
      | ok ps =>
        rw [hps] at h
        simp only [Except.ok.injEq] at h
        exact ⟨ncols, ccols, ps, rfl, rfl, hps, h.symm⟩

theorem preTransform_ok {f : FittedPreprocessor} {t : Table} {M : List (List ℝ)}
    (h : preTransform f t = .ok M) :
    ∃ ncols ccols, routeColumns t f.numNames = .ok ncols ∧
      routeColumns t f.catNames = .ok ccols ∧
      M = numTransform f.numParams ncols ++
        castBlock (ohTransform f.catCats ccols) := by
  unfold preTransform at h
  cases hn : routeColumns t f.numNames with
  | error e => rw [hn] at h; exact absurd h (by simp)
  | ok ncols =>
    rw [hn] at h
    cases hc : routeColumns t f.catNames with
    | error e => rw [hc] at h; exact absurd h (by simp)
    | ok ccols =>
      rw [hc] at h
      exact ⟨ncols, ccols, rfl, rfl, combine_ok_eq h⟩

theorem mem_zipWith {α β γ : Type} {f : α → β → γ} {x : γ} :
    ∀ {as : List α} {bs : List β}, x ∈ List.zipWith f as bs →
      ∃ a ∈ as, ∃ b ∈ bs, x = f a b := by
  intro as
  induction as with
  | nil => intro bs h; simp at h
  | cons a as ih =>
    intro bs h
    cases bs with
    | nil => simp at h
    | cons b bs =>
      rw [List.zipWith_cons_cons] at h
      rcases List.mem_cons.mp h with rfl | h'
      · exact ⟨a, List.mem_cons_self _ _, b, List.mem_cons_self _ _, rfl⟩
      · obtain ⟨a', ha, b', hb, rfl⟩ := ih h'
        exact ⟨a', List.mem_cons_of_mem _ ha, b', List.mem_cons_of_mem _ hb, rfl⟩

theorem numTransform_mem_length {ps : List NumColParams} {cols : List Column}
    {r : ℕ} (h : ∀ c ∈ cols, c.data.length = r) :
    ∀ x ∈ numTransform ps cols, x.length = r := by
  intro x hx
  obtain ⟨p, _, c, hc, rfl⟩ := mem_zipWith hx
  unfold numTransformCol
  rw [List.length_map]
  exact h c hc

theorem ohBlock_mem_length {cats : List (List Cell)} {cols : List Column}
    {r : ℕ} (h : ∀ c ∈ cols, c.data.length = r) :
    ∀ x ∈ castBlock (ohTransform cats cols), x.length = r := by
  intro x hx
  obtain ⟨q, hq, rfl⟩ := List.mem_map.mp hx
  rw [List.length_map]
  obtain ⟨blk, hblk, hqblk⟩ := List.mem_flatten.mp hq
  obtain ⟨cs, _, c, hc, rfl⟩ := mem_zipWith hblk
  obtain ⟨cat, _, rfl⟩ := List.mem_map.mp hqblk
  rw [List.length_map]
  exact h c hc

theorem zip_oh_lengths :
    ∀ {cats : List (List Cell)} {cols : List Column}, cats.length = cols.length →
      (List.zipWith ohTransformCol cats cols).map List.length =
        cats.map List.length := by
  intro cats
  induction cats with
  | nil => intro cols _; simp
  | cons a as ih =>
    intro cols h
    cases cols with
    | nil => simp at h
    | cons c cs =>
      rw [List.zipWith_cons_cons, List.map_cons, List.map_cons,
        ih (by simpa using h)]
      unfold ohTransformCol
      rw [List.length_map]

theorem ohTransform_length {cats : List (List Cell)} {cols : List Column}
    (h : cats.length = cols.length) :
    (ohTransform cats cols).length = (cats.map List.length).sum := by
  unfold ohTransform
  rw [List.length_flatten, zip_oh_lengths h]

/-- C3: for a preprocessor fitted on `t0`, transform of any accepted table
`t` yields exactly (number of numerical columns) + (sum over categorical
columns of the number of distinct categories observed at fit time) output
columns; the count is determined by the fit table alone, so inference data
with novel categories cannot change it. -/
theorem preprocessor_column_count (nn cn : List String) (t0 t : Table)
    (f : FittedPreprocessor) (M : List (List ℝ))
    (hfit : preFit nn cn t0 = .ok f) (htr : preTransform f t = .ok M) :
    ∃ ccols0, routeColumns t0 cn = .ok ccols0 ∧
      M.length = nn.length + (ccols0.map (fun c => (ohFitCol c).length)).sum := by
  obtain ⟨ncols0, ccols0, ps, hn0, hc0, hnf, rfl⟩ := preFit_ok hfit
  obtain ⟨ncols, ccols, hn, hc, rfl⟩ := preTransform_ok htr
  refine ⟨ccols0, hc0, ?_⟩
  rw [List.length_append]
  have hps : ps.length = nn.length := by
    rw [numFit_length hnf, (routeColumns_ok_spec hn0).1]
  have hncols : ncols.length = nn.length := (routeColumns_ok_spec hn).1
  have hccols : ccols.length = cn.length := (routeColumns_ok_spec hc).1
  have hccols0 : ccols0.length = cn.length := (routeColumns_ok_spec hc0).1
  have hnum : (numTransform ps ncols).length = nn.length := by
    unfold numTransform
    rw [List.length_zipWith, hps, hncols, Nat.min_self]
  have hcat : (castBlock (ohTransform (ccols0.map ohFitCol) ccols)).length =
      (ccols0.map (fun c => (ohFitCol c).length)).sum := by
    unfold castBlock
    rw [List.length_map,
      ohTransform_length (by rw [List.length_map, hccols0, hccols]),
      List.map_map]
    rfl
  rw [hnum, hcat]

/-- C4: transform output has exactly as many rows as the input table: every
output column has the input's row count, and the output is the column-wise
concatenation of per-column row-aligned maps over the routed input columns
(each output row `i` is computed from input row `i`). -/
theorem preprocessor_row_count (f : FittedPreprocessor) (t : Table)
    (M : List (List ℝ)) (r : ℕ)
    (hr : ∀ c ∈ t.cols, c.data.length = r)
    (htr : preTransform f t = .ok M) :
    (∀ col ∈ M, col.length = r) ∧
    ∃ ncols ccols, routeColumns t f.numNames = .ok ncols ∧
      routeColumns t f.catNames = .ok ccols ∧
      M = numTransform f.numParams ncols ++
        castBlock (ohTransform f.catCats ccols) := by
  obtain ⟨ncols, ccols, hn, hc, rfl⟩ := preTransform_ok htr
  refine ⟨?_, ncols, ccols, hn, hc, rfl⟩
  intro col hcol
  rcases List.mem_append.mp hcol with hmem | hmem
  · exact numTransform_mem_length
      (fun c hc' => hr c ((routeColumns_ok_spec hn).2.2.1 c hc')) col hmem
  · exact ohBlock_mem_length
      (fun c hc' => hr c ((routeColumns_ok_spec hc).2.2.1 c hc')) col hmem

/-- C9: the Combiner fails with `RowCountMismatchError` whenever the two
blocks disagree on row count; and when both pipelines are applied to one
table of uniform row count the error branch is unreachable: transform
succeeds and returns the scaled numerical columns in original order
followed by the one-hot columns in (source-column, then category) order. -/
theorem combiner_contract :
    (∀ (b1 b2 : List (List ℝ)) (c1 c2 : List ℝ),
      b1.head? = some c1 → b2.head? = some c2 → c1.length ≠ c2.length →
      combine b1 b2 = .error .rowCountMismatch) ∧
    (∀ (f : FittedPreprocessor) (t : Table) (r : ℕ)
      (ncols ccols : List Column),
      (∀ c ∈ t.cols, c.data.length = r) →
      routeColumns t f.numNames = .ok ncols →
      routeColumns t f.catNames = .ok ccols →
      preTransform f t = .ok (numTransform f.numParams ncols ++
        castBlock (ohTransform f.catCats ccols))) := by
  constructor
  · intro b1 b2 c1 c2 h1 h2 hne
    unfold combine
    rw [h1, h2]
    dsimp only
    rw [if_neg hne]
  · intro f t r ncols ccols hr hn hc
    have hb1 : ∀ x ∈ numTransform f.numParams ncols, x.length = r :=
      numTransform_mem_length fun c hc' => hr c ((routeColumns_ok_spec hn).2.2.1 c hc')
    have hb2 : ∀ x ∈ castBlock (ohTransform f.catCats ccols), x.length = r :=
      ohBlock_mem_length fun c hc' => hr c ((routeColumns_ok_spec hc).2.2.1 c hc')
    unfold preTransform
    rw [hn, hc]
    dsimp only
    unfold combine
    cases h1 : (numTransform f.numParams ncols).head? with
    | none => cases h2 : (castBlock (ohTransform f.catCats ccols)).head? <;> rfl
    | some c1 =>
      cases h2 : (castBlock (ohTransform f.catCats ccols)).head? with
      | none => rfl
      | some c2 =>
        dsimp only
        rw [if_pos]
        rw [hb1 c1 (List.mem_of_mem_head? h1), hb2 c2 (List.mem_of_mem_head? h2)]

theorem routeColumns_congr {t1 t2 : Table} :
    ∀ {ns : List String}, (∀ n ∈ ns, t1.lookup n = t2.lookup n) →
      routeColumns t1 ns = routeColumns t2 ns := by
  intro ns
  induction ns with
  | nil => intro _; rfl
  | cons n ns ih =>
    intro h
    rw [routeColumns, routeColumns, h n (List.mem_cons_self n ns),
      ih fun m hm => h m (List.mem_cons_of_mem n hm)]

/-- C10: any column outside the two designated groups is irrelevant to the
output: two tables that agree on the lookups of the designated names (for
example the original table and the one with the timestamp and target
columns dropped) produce identical fit-transform output, so the feature
matrix contains only columns derived from the designated groups. -/
theorem undesignated_columns_ignored (nn cn : List String) (t1 t2 : Table)
    (h : ∀ n ∈ nn ++ cn, t1.lookup n = t2.lookup n) :
    preFitTransform nn cn t1 = preFitTransform nn cn t2 := by
  have hnn : ∀ n ∈ nn, t1.lookup n = t2.lookup n :=
    fun n hn => h n (List.mem_append_left _ hn)
  have hcn : ∀ n ∈ cn, t1.lookup n = t2.lookup n :=
    fun n hn => h n (List.mem_append_right _ hn)
  have h1 : routeColumns t1 nn = routeColumns t2 nn := routeColumns_congr hnn
  have h2 : routeColumns t1 cn = routeColumns t2 cn := routeColumns_congr hcn
  unfold preFitTransform preFit
  rw [h1, h2]
  cases routeColumns t2 nn with
  | error e => rfl
  | ok ncols =>
    dsimp only
    cases routeColumns t2 cn with
    | error e => rfl
    | ok ccols =>
      dsimp only
      cases numFit ncols with
      | error e => rfl
      | ok ps =>
        dsimp only
        unfold preTransform
        dsimp only
        rw [h1, h2]

/-- C5: `fit_transform` is a pure function of the input table and the
designated column lists: it keeps no hidden state, so two invocations on
the same table produce identical output feature matrices. -/
theorem fit_transform_deterministic (nn cn : List String) (t : Table) :
    preFitTransform nn cn t = preFitTransform nn cn t := rfl

theorem exFit_eval :
    preFit ["C1"] ["C3"] (Table.mk [Column.mk "C1" [some 1], Column.mk "C3" [some 5]]) =
      .ok ⟨["C1"], ["C3"], [⟨1, 1, 0⟩], [[some 5]]⟩ := by
  unfold preFit
  rw [show routeColumns (Table.mk [Column.mk "C1" [some 1], Column.mk "C3" [some 5]])
    ["C1"] = .ok [Column.mk "C1" [some 1]] from by decide]
  rw [show routeColumns (Table.mk [Column.mk "C1" [some 1], Column.mk "C3" [some 5]])
    ["C3"] = .ok [Column.mk "C3" [some 5]] from by decide]
  dsimp only
  rw [show numFit [Column.mk "C1" [some 1]] = .ok [⟨1, 1, 0⟩] from by
    norm_num [numFit, numFitCol, imputerFitCol, observed, qmean, qvar,
      imputeCol, imputeCell, List.filterMap_cons]]
  dsimp only
  norm_num [ohFitCol, distinctFirst]

theorem exTransform_eval :
    preTransform ⟨["C1"], ["C3"], [⟨1, 1, 0⟩], [[some 5]]⟩
      (Table.mk [Column.mk "C1" [some 2], Column.mk "C3" [some 9]]) =
      .ok [[(1 : ℝ)], [0]] := by
  unfold preTransform
  dsimp only
  rw [show routeColumns (Table.mk [Column.mk "C1" [some 2], Column.mk "C3" [some 9]])
    ["C1"] = .ok [Column.mk "C1" [some 2]] from by decide]
  rw [show routeColumns (Table.mk [Column.mk "C1" [some 2], Column.mk "C3" [some 9]])
    ["C3"] = .ok [Column.mk "C3" [some 9]] from by decide]
  dsimp only
  norm_num [numTransform, numTransformCol, scaleCell, imputeCell, scale,
    castBlock, ohTransform, ohTransformCol, combine]

/-- Witness: one-hot fitted on values 5, 7, 5 and applied to 5, 7, 9; row 2
holds the unseen value 9, so its indicators sum to 0. -/
theorem onehot_row_sums_witness :
    2 < (Column.mk "C3" [some 5, some 7, some 9]).data.length ∧
    ((ohTransformCol (ohFitCol (Column.mk "C3" [some 5, some 7, some 5]))
        (Column.mk "C3" [some 5, some 7, some 9])).length =
      (ohFitCol (Column.mk "C3" [some 5, some 7, some 5])).length ∧
     ((ohTransformCol (ohFitCol (Column.mk "C3" [some 5, some 7, some 5]))
        (Column.mk "C3" [some 5, some 7, some 9])).map (fun oc => oc.getD 2 0)).sum =
       if (Column.mk "C3" [some 5, some 7, some 9]).data.getD 2 none ∈
           (Column.mk "C3" [some 5, some 7, some 5]).data then (1 : ℚ) else 0) :=
  ⟨by decide,
   onehot_row_sums (Column.mk "C3" [some 5, some 7, some 5])
     (Column.mk "C3" [some 5, some 7, some 9]) 2 (by decide)⟩

/-- Witness: the column with values 0 and 2 fits to mean 1 and variance 1,
and its standardised output has mean 0 and variance 1. -/
theorem scaler_standardizes_witness :
    numFitCol (Column.mk "C1" [some 0, some 2]) = .ok ⟨1, 1, 1⟩ ∧
    (rmean (numTransformCol ⟨1, 1, 1⟩ (Column.mk "C1" [some 0, some 2])) = 0 ∧
     (constantObserved (Column.mk "C1" [some 0, some 2]) →
       ∀ y ∈ numTransformCol ⟨1, 1, 1⟩ (Column.mk "C1" [some 0, some 2]), y = 0) ∧
     (¬ constantObserved (Column.mk "C1" [some 0, some 2]) →
       rvar (numTransformCol ⟨1, 1, 1⟩ (Column.mk "C1" [some 0, some 2])) = 1 ∧
       Real.sqrt (rvar (numTransformCol ⟨1, 1, 1⟩
         (Column.mk "C1" [some 0, some 2]))) = 1)) :=
  ⟨by norm_num [numFitCol, imputerFitCol, observed, qmean, qvar, imputeCol,
      imputeCell, List.filterMap_cons],
   scaler_standardizes (Column.mk "C1" [some 0, some 2]) ⟨1, 1, 1⟩
     (by norm_num [numFitCol, imputerFitCol, observed, qmean, qvar, imputeCol,
       imputeCell, List.filterMap_cons])⟩

/-- Witness: a preprocessor fitted on a one-row table (one numerical column,
one categorical column with single category 5) transforms a table holding
the novel category 9 into a matrix of 1 + 1 columns. -/
theorem preprocessor_column_count_witness :
    preFit ["C1"] ["C3"] (Table.mk [Column.mk "C1" [some 1], Column.mk "C3" [some 5]]) =
      .ok ⟨["C1"], ["C3"], [⟨1, 1, 0⟩], [[some 5]]⟩ ∧
    preTransform ⟨["C1"], ["C3"], [⟨1, 1, 0⟩], [[some 5]]⟩
      (Table.mk [Column.mk "C1" [some 2], Column.mk "C3" [some 9]]) =
      .ok [[(1 : ℝ)], [0]] ∧
    ∃ ccols0,
      routeColumns (Table.mk [Column.mk "C1" [some 1], Column.mk "C3" [some 5]])
        ["C3"] = .ok ccols0 ∧
      ([[(1 : ℝ)], [0]] : List (List ℝ)).length =
        (["C1"] : List String).length +
          (ccols0.map (fun c => (ohFitCol c).length)).sum :=
  ⟨exFit_eval, exTransform_eval,
   preprocessor_column_count ["C1"] ["C3"]
     (Table.mk [Column.mk "C1" [some 1], Column.mk "C3" [some 5]])
     (Table.mk [Column.mk "C1" [some 2], Column.mk "C3" [some 9]])
     ⟨["C1"], ["C3"], [⟨1, 1, 0⟩], [[some 5]]⟩ [[(1 : ℝ)], [0]]
     exFit_eval exTransform_eval⟩

/-- Witness: the same fitted preprocessor on the one-row transform table
yields output columns of length 1, the input row count. -/
theorem preprocessor_row_count_witness :
    (∀ c ∈ (Table.mk [Column.mk "C1" [some 2], Column.mk "C3" [some 9]]).cols,
      c.data.length = 1) ∧
    preTransform ⟨["C1"], ["C3"], [⟨1, 1, 0⟩], [[some 5]]⟩
      (Table.mk [Column.mk "C1" [some 2], Column.mk "C3" [some 9]]) =
      .ok [[(1 : ℝ)], [0]] ∧
    ((∀ col ∈ ([[(1 : ℝ)], [0]] : List (List ℝ)), col.length = 1) ∧
     ∃ ncols ccols,
       routeColumns (Table.mk [Column.mk "C1" [some 2], Column.mk "C3" [some 9]])
         ["C1"] = .ok ncols ∧
       routeColumns (Table.mk [Column.mk "C1" [some 2], Column.mk "C3" [some 9]])
         ["C3"] = .ok ccols ∧
       ([[(1 : ℝ)], [0]] : List (List ℝ)) =
         numTransform [⟨1, 1, 0⟩] ncols ++
           castBlock (ohTransform [[some 5]] ccols)) :=
  ⟨by decide, exTransform_eval,
   preprocessor_row_count ⟨["C1"], ["C3"], [⟨1, 1, 0⟩], [[some 5]]⟩
     (Table.mk [Column.mk "C1" [some 2], Column.mk "C3" [some 9]])
     [[(1 : ℝ)], [0]] 1 (by decide) exTransform_eval⟩

/-- Witness: fitting on a fully missing column fails with `EmptyColumnError`,
and a column holding 3 and a missing cell fits with replacement value 3. -/
theorem numerical_fit_contract_witness :
    numFit [Column.mk "C1" [none]] = .error .emptyColumn ∧
    (∃ p, numFitCol (Column.mk "C4" [some 3, none]) = .ok p ∧
      p.impMean = qmean (observed (Column.mk "C4" [some 3, none]))) :=
  ⟨(numerical_fit_contract [Column.mk "C1" [none]]).1
     ⟨Column.mk "C1" [none], by decide, by decide⟩,
   (numerical_fit_contract [Column.mk "C1" [none]]).2
     (Column.mk "C4" [some 3, none]) (by decide)⟩

/-- Witness: routing the present name A succeeds order-preservingly and
routing the absent name B fails with `ColumnNotFoundError`. -/
theorem router_contract_witness :
    (∃ cs, routeColumns (Table.mk [Column.mk "A" [some 1]]) ["A"] = .ok cs ∧
      cs.map Column.name = ["A"] ∧
      ∀ c ∈ cs, c ∈ (Table.mk [Column.mk "A" [some 1]]).cols) ∧
    (∃ m ∈ ["B"], (Table.mk [Column.mk "A" [some 1]]).lookup m = none ∧
      routeColumns (Table.mk [Column.mk "A" [some 1]]) ["B"] =
        .error (.columnNotFound m)) :=
  ⟨(router_contract (Table.mk [Column.mk "A" [some 1]]) ["A"]).1 (by decide),
   (router_contract (Table.mk [Column.mk "A" [some 1]]) ["B"]).2
     ⟨"B", by decide, by decide⟩⟩

/-- Witness: two columns agreeing at row 0 (both missing there) transform to
the same row-0 value, the standardised fit-time mean. -/
theorem transform_uses_fit_params_witness :
    (Column.mk "C1" [none]).data[0]? = (Column.mk "C5" [none, some 4]).data[0]? ∧
    ((numTransformCol ⟨2, 3, 0⟩ (Column.mk "C1" [none]))[0]? =
      (numTransformCol ⟨2, 3, 0⟩ (Column.mk "C5" [none, some 4]))[0]? ∧
     ((Column.mk "C1" [none]).data[0]? = some none →
       (numTransformCol ⟨2, 3, 0⟩ (Column.mk "C1" [none]))[0]? =
         some ((((2 : ℚ) : ℝ) - ((3 : ℚ) : ℝ)) / scale 0)) ∧
     (ohTransformCol [some 1] (Column.mk "C1" [none])).map (fun oc => oc[0]?) =
       (ohTransformCol [some 1] (Column.mk "C5" [none, some 4])).map
         (fun oc => oc[0]?)) :=
  ⟨by decide,
   transform_uses_fit_params ⟨2, 3, 0⟩ [some 1] (Column.mk "C1" [none])
     (Column.mk "C5" [none, some 4]) 0 (by decide)⟩

/-- Witness: blocks of row counts 2 and 1 make the Combiner fail with
`RowCountMismatchError`; on the uniform one-row table the fitted
preprocessor's transform returns the concatenated blocks. -/
theorem combiner_contract_witness :
    combine [[(1 : ℝ), 2]] [[(1 : ℝ)]] = .error .rowCountMismatch ∧
    preTransform ⟨["C1"], ["C3"], [⟨1, 1, 0⟩], [[some 5]]⟩
      (Table.mk [Column.mk "C1" [some 2], Column.mk "C3" [some 9]]) =
      .ok (numTransform [⟨1, 1, 0⟩] [Column.mk "C1" [some 2]] ++
        castBlock (ohTransform [[some 5]] [Column.mk "C3" [some 9]])) :=
  ⟨combiner_contract.1 [[(1 : ℝ), 2]] [[(1 : ℝ)]] [1, 2] [1] rfl rfl (by decide),
   combiner_contract.2 ⟨["C1"], ["C3"], [⟨1, 1, 0⟩], [[some 5]]⟩
     (Table.mk [Column.mk "C1" [some 2], Column.mk "C3" [some 9]]) 1
     [Column.mk "C1" [some 2]] [Column.mk "C3" [some 9]]
     (by decide) (by decide) (by decide)⟩

/-- Witness: dropping the timestamp column C2 and the target column C6 from
a table does not change the fit-transform output on the designated groups. -/
theorem undesignated_columns_ignored_witness :
    (∀ n ∈ ["C1"] ++ ["C3"],
      (Table.mk [Column.mk "C2" [some 7], Column.mk "C1" [some 1],
        Column.mk "C3" [some 5], Column.mk "C6" [some 9]]).lookup n =
      (Table.mk [Column.mk "C1" [some 1], Column.mk "C3" [some 5]]).lookup n) ∧
    preFitTransform ["C1"] ["C3"]
      (Table.mk [Column.mk "C2" [some 7], Column.mk "C1" [some 1],
        Column.mk "C3" [some 5], Column.mk "C6" [some 9]]) =
    preFitTransform ["C1"] ["C3"]
      (Table.mk [Column.mk "C1" [some 1], Column.mk "C3" [some 5]]) :=
  ⟨by decide,
   undesignated_columns_ignored ["C1"] ["C3"]
     (Table.mk [Column.mk "C2" [some 7], Column.mk "C1" [some 1],
       Column.mk "C3" [some 5], Column.mk "C6" [some 9]])
     (Table.mk [Column.mk "C1" [some 1], Column.mk "C3" [some 5]])
     (by decide)⟩

end CRPre
